import Mathlib

/-!
Shallow embedding of the heapless crate's three core containers and
verification of the specification claims about them.

The embedding follows the source:

* `src/vec.rs` — `i::Vec`, a fixed-capacity growable buffer.  The Rust
  value owns `N` raw slots of which the first `len` are initialized;
  uninitialized slots are never read, so the state is faithfully the list
  of live elements (slots `[0, len)`), with the capacity `N` passed to
  each operation (it is a type parameter in Rust).
* `src/ring_buffer/mod.rs` — `RingBuffer`, the SPSC queue: a `head`
  cursor, a `tail` cursor and a backing array of `N` slots.  The backing
  array is modelled as a `List` of length `N` whose initial contents are
  arbitrary (the Rust array starts uninitialized; valid operation
  sequences never read a slot before writing it, which the theorems
  reflect by universally quantifying the initial contents).
* `src/circular_buffer.rs` — `CircularBuffer`, the overwriting circular
  buffer: backing array, write cursor `index`, and `len`.

Rust operations that can panic (a `slice[i]` out-of-bounds access or a
failed `assert!`) are modelled as returning `none`; operations that
cannot panic are total functions.
-/

namespace Heapless

/-- Error type of `RingBuffer::enqueue` in the source: a unit-like struct
carrying no data (`struct BufferFullError;` re-exported from `lib.rs`). -/
structure BufferFullError where
deriving DecidableEq

/-- State of `RingBuffer<T, A>` (src/ring_buffer/mod.rs): the `head` cursor
(next slot to read), the `tail` cursor (next slot to write) and the backing
array of `A::len()` slots. -/
structure RingBuffer (T : Type) where
  head : Nat
  tail : Nat
  buffer : List T
deriving DecidableEq

namespace RingBuffer

variable {T : Type}

/-- `RingBuffer::capacity`: `buffer.len() - 1` (one sentinel slot). -/
def capacity (rb : RingBuffer T) : Nat :=
  rb.buffer.length - 1

/-- `RingBuffer::enqueue`: with `n = capacity() + 1`, compute
`next_tail = (tail + 1) % n`; if `next_tail != head` write the item into
slot `tail` and advance `tail`, otherwise return `Err(BufferFullError)`
leaving the state untouched.  Note the error is the unit-like
`BufferFullError`, so the rejected item is dropped, not handed back. -/
def enqueue (rb : RingBuffer T) (item : T) :
    RingBuffer T × Except BufferFullError Unit :=
  let n := rb.capacity + 1
  let next_tail := (rb.tail + 1) % n
  if next_tail ≠ rb.head then
    ({ rb with buffer := rb.buffer.set rb.tail item, tail := next_tail },
      Except.ok ())
  else
    (rb, Except.error ⟨⟩)

/-- `RingBuffer::dequeue`: if `head != tail` read slot `head` and advance
`head` by one modulo `n = capacity() + 1`, else return `None`. -/
def dequeue (rb : RingBuffer T) : Option T × RingBuffer T :=
  let n := rb.capacity + 1
  if rb.head ≠ rb.tail then
    (rb.buffer[rb.head]?, { rb with head := (rb.head + 1) % n })
  else
    (none, rb)

/-- `RingBuffer::len` exactly as in the source: `head - tail` when
`head > tail`, else `tail - head` (this is the buggy computation the
claims are checked against). -/
def len (rb : RingBuffer T) : Nat :=
  if rb.head > rb.tail then rb.head - rb.tail else rb.tail - rb.head

/-- Sequentially enqueue every element of a list; `none` as soon as one
enqueue reports the queue full. -/
def enqueueAll (rb : RingBuffer T) : List T → Option (RingBuffer T)
  | [] => some rb
  | v :: vs =>
    match rb.enqueue v with
    | (rb', Except.ok _) => rb'.enqueueAll vs
    | (_, Except.error _) => none

/-- Dequeue `k` times, collecting the `k` results in order. -/
def dequeueN (rb : RingBuffer T) : Nat → List (Option T) × RingBuffer T
  | 0 => ([], rb)
  | k + 1 =>
    let step := rb.dequeue
    let rest := step.2.dequeueN k
    (step.1 :: rest.1, rest.2)

end RingBuffer

/-- A single producer/consumer operation on the ring buffer. -/
inductive RBOp (T : Type) where
  | enq (item : T)
  | deq
deriving DecidableEq

namespace RingBuffer

variable {T : Type}

/-- Apply one operation to the queue state (the result value is dropped). -/
def applyOp (rb : RingBuffer T) : RBOp T → RingBuffer T
  | RBOp.enq item => (rb.enqueue item).1
  | RBOp.deq => rb.dequeue.2

/-- Apply a whole sequence of operations from left to right. -/
def applyOps (rb : RingBuffer T) (ops : List (RBOp T)) : RingBuffer T :=
  ops.foldl applyOp rb

end RingBuffer

/-- State of `i::Vec` / `Vec<T, N>` (src/vec.rs): the live elements in
slots `[0, len)`; the capacity `N` is a type parameter in Rust and is
passed explicitly to the operations that consult it. -/
structure Vec (T : Type) where
  data : List T
deriving DecidableEq

namespace Vec

variable {T : Type}

/-- `i::Vec::push`: if `len < capacity`, `push_unchecked` writes the item
into slot `len` and increments `len`; else return `Err(item)`. -/
def push (N : Nat) (v : Vec T) (item : T) : Vec T × Except T Unit :=
  if v.data.length < N then
    (⟨v.data ++ [item]⟩, Except.ok ())
  else
    (v, Except.error item)

/-- `i::Vec::push_unchecked`: write into slot `len`, increment `len`
(no capacity check). -/
def pushUnchecked (v : Vec T) (item : T) : Vec T :=
  ⟨v.data ++ [item]⟩

/-- `Vec::pop`: if `len != 0`, `pop_unchecked` decrements `len` and reads
slot `len`, i.e. removes and returns the last live element. -/
def pop (v : Vec T) : Option T × Vec T :=
  if v.data.length ≠ 0 then
    (v.data.getLast?, ⟨v.data.dropLast⟩)
  else
    (none, v)

/-- `i::Vec::extend_from_slice`: upfront capacity check
`len + other.len() > capacity`, then `push_unchecked` of each element of
`other` in order. -/
def extendFromSlice (N : Nat) (v : Vec T) (other : List T) :
    Vec T × Except Unit Unit :=
  if v.data.length + other.length > N then
    (v, Except.error ())
  else
    (other.foldl pushUnchecked v, Except.ok ())

/-- `i::Vec::insert`: the source first runs `assert!(index <= len)` — a
panic (modelled as `none`) when `index > len` — and only then tests
`len < capacity && index <= len`, returning `Err(item)` when the vector
is full and otherwise shifting `[index, len)` one slot toward the back
and writing `item` at `index` (`insert_unchecked`). -/
def insert (N : Nat) (v : Vec T) (index : Nat) (item : T) :
    Option (Vec T × Except T Unit) :=
  if index ≤ v.data.length then
    if v.data.length < N ∧ index ≤ v.data.length then
      some (⟨v.data.take index ++ item :: v.data.drop index⟩, Except.ok ())
    else
      some (v, Except.error item)
  else
    none

/-- `i::Vec::remove`: if `index < len`, `remove_unchecked` reads the
element at `index`, shifts `[index+1, len)` left by one and decrements
`len`; otherwise it returns `Err(())` — a recoverable error, not a
panic. -/
def remove (v : Vec T) (index : Nat) : Vec T × Except Unit T :=
  if h : index < v.data.length then
    (⟨v.data.take index ++ v.data.drop (index + 1)⟩,
      Except.ok (v.data.get ⟨index, h⟩))
  else
    (v, Except.error ())

/-- `i::Vec::swap_remove`: `assert!(index < len)` — a panic (modelled as
`none`) when out of bounds — then swap the element at `index` with the
last element and pop. -/
def swapRemove (v : Vec T) (index : Nat) : Option (Vec T × T) :=
  if h : index < v.data.length then
    some
      (⟨(v.data.set index
          (v.data.getLast
            (List.ne_nil_of_length_pos (Nat.lt_of_le_of_lt (Nat.zero_le _) h)))).dropLast⟩,
        v.data.get ⟨index, h⟩)
  else
    none

/-- Sequentially push every element of a list; `none` as soon as a push
reports the vector full. -/
def pushAll (N : Nat) (v : Vec T) : List T → Option (Vec T)
  | [] => some v
  | x :: xs =>
    match push N v x with
    | (v', Except.ok _) => pushAll N v' xs
    | (_, Except.error _) => none

/-- Pop `k` times, collecting the `k` results in order. -/
def popN (v : Vec T) : Nat → List (Option T) × Vec T
  | 0 => ([], v)
  | k + 1 =>
    let step := v.pop
    let rest := step.2.popN k
    (step.1 :: rest.1, rest.2)

end Vec

/-- State of `CircularBuffer<T, A>` (src/circular_buffer.rs): backing
array, the write cursor `index` and `len`. -/
structure CircularBuffer (T : Type) where
  array : List T
  index : Nat
  len : Nat
deriving DecidableEq

namespace CircularBuffer

variable {T : Type}

/-- `CircularBuffer::capacity`: length of the backing array. -/
def capacity (c : CircularBuffer T) : Nat :=
  c.array.length

/-- `CircularBuffer::push`: if `len < capacity` increment `len`; then
`slice[index] = element` — an out-of-bounds panic (modelled as `none`)
when `index >= capacity`, which happens exactly for a zero-capacity
buffer — and finally `set_index((index + 1) % capacity)`. -/
def push (c : CircularBuffer T) (element : T) : Option (CircularBuffer T) :=
  let len := c.len
  let cap := c.capacity
  let index := c.index
  let c₁ := if len < cap then { c with len := len + 1 } else c
  if index < cap then
    some { c₁ with array := c₁.array.set index element,
                   index := (index + 1) % cap }
  else
    none

/-- Sequentially push every element of a list; `none` as soon as a push
panics. -/
def pushAll (c : CircularBuffer T) : List T → Option (CircularBuffer T)
  | [] => some c
  | x :: xs =>
    match c.push x with
    | some c' => c'.pushAll xs
    | none => none

end CircularBuffer

/-! ### General helper lemmas -/

/-- Two offsets that are distinct and both below the modulus stay distinct
after adding a common base and reducing modulo `N`. -/
theorem add_mod_ne_of_ne {N a b : Nat} (h : Nat) (ha : a < N) (hb : b < N)
    (hab : a ≠ b) : (h + a) % N ≠ (h + b) % N := by
  intro heq
  have hmod : a % N = b % N := Nat.ModEq.add_left_cancel' h heq
  rw [Nat.mod_eq_of_lt ha, Nat.mod_eq_of_lt hb] at hmod
  exact hab hmod

/-- Adding a nonzero offset below the modulus to a reduced base moves it
away from the base. -/
theorem add_mod_ne_self {N h a : Nat} (hh : h < N) (ha : a < N)
    (ha0 : a ≠ 0) : (h + a) % N ≠ h := by
  intro heq
  have h2 : (h + a) % N = (h + 0) % N := by
    rw [heq, Nat.add_zero, Nat.mod_eq_of_lt hh]
  exact add_mod_ne_of_ne h ha (by omega) ha0 h2

/-- Reading a list at every position of `List.range` recovers the list. -/
theorem range_map_getElem? {T : Type} (l : List T) :
    (List.range l.length).map (fun i => l[i]?) = l.map some := by
  apply List.ext_getElem?
  intro n
  by_cases hn : n < l.length
  · rw [List.getElem?_map, List.getElem?_map, List.getElem?_range hn,
      List.getElem?_eq_getElem hn]
    simp [List.getElem?_eq_getElem hn]
  · rw [List.getElem?_eq_none (by simpa using Nat.not_lt.mp hn),
      List.getElem?_eq_none (by simpa using Nat.not_lt.mp hn)]

/-! ### Claim C2 — `i::Vec::push` -/

/-- C2: for every fixed-capacity buffer state, if `len < capacity` then
`push(item)` returns `Ok(())`, places `item` in the last slot leaving all
prior elements unchanged (the live elements become `data ++ [item]`, so
`len` grows by exactly one); if `len == capacity` it returns `Err(item)`
— the exact value passed in — and leaves the state untouched. -/
theorem c2_push_spec (T : Type) (N : Nat) (v : Vec T) (item : T) :
    (v.data.length < N →
      Vec.push N v item = (⟨v.data ++ [item]⟩, Except.ok ())) ∧
    (v.data.length = N →
      Vec.push N v item = (v, Except.error item)) := by
  constructor
  · intro h
    simp [Vec.push, h]
  · intro h
    simp [Vec.push, h]

/-- Witness for C2: a concrete non-full push and a concrete full push. -/
theorem c2_push_spec_witness :
    Vec.push 2 (⟨[1]⟩ : Vec Nat) 7 = (⟨[1, 7]⟩, Except.ok ()) ∧
    Vec.push 1 (⟨[9]⟩ : Vec Nat) 7 = (⟨[9]⟩, Except.error 7) :=
  ⟨(c2_push_spec Nat 2 ⟨[1]⟩ 7).1 (by decide),
    (c2_push_spec Nat 1 ⟨[9]⟩ 7).2 (by decide)⟩

/-! ### Claim C3 — `RingBuffer::enqueue` on a full queue -/

/-- C3 counterexample: on the full queue `⟨head 0, tail 3, 4 slots⟩`
(`next_tail = (3+1) % 4 = 0 = head`), `enqueue` returns the unit-like
`BufferFullError` — the very same error value for two different rejected
items `5 ≠ 7` — so it cannot be `Err(item)`: the rejected value is
dropped, not handed back to the caller as the claim states. -/
theorem c3_counterexample :
    (RingBuffer.enqueue (⟨0, 3, [1, 2, 3, 9]⟩ : RingBuffer Nat) 5).2
        = Except.error ⟨⟩ ∧
    (RingBuffer.enqueue (⟨0, 3, [1, 2, 3, 9]⟩ : RingBuffer Nat) 7).2
        = (RingBuffer.enqueue (⟨0, 3, [1, 2, 3, 9]⟩ : RingBuffer Nat) 5).2 ∧
    (5 : Nat) ≠ 7 := by
  refine ⟨rfl, rfl, by decide⟩

/-- C3 amended: on every full SPSC queue state (`next_tail == head`),
`enqueue(item)` fails by returning `Err(BufferFullError)` — a constant
error value that does not carry the rejected item back — and mutates
nothing: head, tail and all stored elements are unchanged. -/
theorem c3_enqueue_full (T : Type) (rb : RingBuffer T) (item : T)
    (hfull : (rb.tail + 1) % (rb.capacity + 1) = rb.head) :
    rb.enqueue item = (rb, Except.error ⟨⟩) := by
  simp [RingBuffer.enqueue, hfull]

/-- Witness for C3's amended theorem at a concrete full queue. -/
theorem c3_enqueue_full_witness :
    RingBuffer.enqueue (⟨0, 3, [1, 2, 3, 9]⟩ : RingBuffer Nat) 5
        = (⟨0, 3, [1, 2, 3, 9]⟩, Except.error ⟨⟩) :=
  c3_enqueue_full Nat ⟨0, 3, [1, 2, 3, 9]⟩ 5 (by decide)

/-! ### Claim C4 — `RingBuffer::len` -/

/-- State reached from a fresh 4-slot queue by `enqueue 0,1,2`,
`dequeue × 3`, `enqueue 3`: head = 3, tail = 0, exactly one element
occupied. -/
def c4State : RingBuffer Nat :=
  RingBuffer.applyOps ⟨0, 0, [0, 0, 0, 0]⟩
    [RBOp.enq 0, RBOp.enq 1, RBOp.enq 2, RBOp.deq, RBOp.deq, RBOp.deq,
      RBOp.enq 3]

/-- C4 (code bug): at the reachable state with head = 3 > tail = 0 the
source's `len()` returns `head - tail = 3`, but the occupied count
`(tail - head) mod N` is 1 — indeed exactly one dequeue succeeds (it
yields the single stored element 3 and the next dequeue yields `None`).
`len()` therefore contradicts its own documentation ("Returns the number
of elements in the queue") whenever the cursors have wrapped with
`head - tail ≠ N - (head - tail)`. -/
theorem c4_len_code_bug :
    c4State.head = 3 ∧ c4State.tail = 0 ∧
    c4State.len = 3 ∧
    (c4State.tail + c4State.buffer.length - c4State.head)
        % c4State.buffer.length = 1 ∧
    c4State.dequeue.1 = some 3 ∧
    c4State.dequeue.2.dequeue.1 = none := by
  decide

/-! ### Claim C7 — `i::Vec::insert` -/

/-- C7 counterexample: inserting at index 1 into an empty vector of
capacity 2 (`index > len`, capacity not exceeded) hits the source's
`assert!(index <= len)` and panics (`none`); the claim instead demands
the recoverable return of the item, `some (v, Err(item))`. -/
theorem c7_counterexample :
    Vec.insert 2 (⟨[]⟩ : Vec Nat) 1 5 = none ∧
    (none : Option (Vec Nat × Except Nat Unit))
        ≠ some (⟨[]⟩, Except.error 5) := by
  exact ⟨rfl, by simp⟩

/-- C7 amended: `insert(index, item)` panics (fatal, modelled `none`)
whenever `index > len`; for `index ≤ len` it returns `Err(item)` with the
buffer unchanged when `len == capacity` (more generally `len ≥ capacity`),
and otherwise shifts `[index, len)` one slot toward the back, writes
`item` at `index`, and increments `len` by one. -/
theorem c7_insert_spec (T : Type) (N : Nat) (v : Vec T) (index : Nat)
    (item : T) :
    (v.data.length < index → Vec.insert N v index item = none) ∧
    (index ≤ v.data.length → v.data.length < N →
      Vec.insert N v index item =
        some (⟨v.data.take index ++ item :: v.data.drop index⟩,
          Except.ok ())) ∧
    (index ≤ v.data.length → N ≤ v.data.length →
      Vec.insert N v index item = some (v, Except.error item)) := by
  refine ⟨fun h => ?_, fun h1 h2 => ?_, fun h1 h2 => ?_⟩
  · simp [Vec.insert, Nat.not_le.mpr h]
  · simp [Vec.insert, h1, h2]
  · simp [Vec.insert, h1, Nat.not_lt.mpr h2]

/-- Witness for C7's amended theorem: a panicking call, a successful
shifted insert, and a full-vector rejection, all concrete. -/
theorem c7_insert_spec_witness :
    Vec.insert 4 (⟨[1, 3]⟩ : Vec Nat) 3 9 = none ∧
    Vec.insert 4 (⟨[1, 3]⟩ : Vec Nat) 1 2
        = some (⟨[1, 2, 3]⟩, Except.ok ()) ∧
    Vec.insert 2 (⟨[1, 3]⟩ : Vec Nat) 1 2
        = some (⟨[1, 3]⟩, Except.error 2) :=
  ⟨(c7_insert_spec Nat 4 ⟨[1, 3]⟩ 3 9).1 (by decide),
    (c7_insert_spec Nat 4 ⟨[1, 3]⟩ 1 2).2.1 (by decide) (by decide),
    (c7_insert_spec Nat 2 ⟨[1, 3]⟩ 1 2).2.2 (by decide) (by decide)⟩

/-! ### Claim C8 — `i::Vec::remove` / `swap_remove` out of bounds -/

/-- C8 counterexample: `remove(0)` on an empty vector (`index ≥ len`)
returns the recoverable error value `Err(())` with the buffer unchanged —
it does not terminate abruptly, contradicting the claim that an
out-of-bounds `remove` is a fatal panic. -/
theorem c8_counterexample :
    Vec.remove (⟨[]⟩ : Vec Nat) 0 = (⟨[]⟩, Except.error ()) := rfl

/-- C8 amended: for `index ≥ len`, `remove(index)` returns the
recoverable error `Err(())` leaving the buffer unchanged (it is
`swap_remove(index)` that treats an out-of-bounds index as a fatal
contract violation and panics); for `index < len`, `remove(index)`
returns the element at `index` and shifts `[index+1, len)` left by one,
decrementing `len`. -/
theorem c8_remove_spec (T : Type) (v : Vec T) (index : Nat) :
    (v.data.length ≤ index →
      Vec.remove v index = (v, Except.error ()) ∧
      Vec.swapRemove v index = none) ∧
    (∀ h : index < v.data.length,
      Vec.remove v index =
        (⟨v.data.take index ++ v.data.drop (index + 1)⟩,
          Except.ok (v.data.get ⟨index, h⟩))) := by
  constructor
  · intro h
    constructor
    · simp [Vec.remove, Nat.not_lt.mpr h]
    · simp [Vec.swapRemove, Nat.not_lt.mpr h]
  · intro h
    simp [Vec.remove, h]

/-- Witness for C8's amended theorem: a concrete out-of-bounds call and a
concrete in-bounds removal. -/
theorem c8_remove_spec_witness :
    (Vec.remove (⟨[5, 6]⟩ : Vec Nat) 7 = (⟨[5, 6]⟩, Except.error ()) ∧
      Vec.swapRemove (⟨[5, 6]⟩ : Vec Nat) 7 = none) ∧
    Vec.remove (⟨[5, 6]⟩ : Vec Nat) 0 = (⟨[6]⟩, Except.ok 5) :=
  ⟨(c8_remove_spec Nat ⟨[5, 6]⟩ 7).1 (by decide),
    (c8_remove_spec Nat ⟨[5, 6]⟩ 0).2 (by decide)⟩

/-! ### Claim C9 — `i::Vec::extend_from_slice` -/

/-- Folding `push_unchecked` over a slice appends it. -/
theorem foldl_pushUnchecked {T : Type} (other : List T) :
    ∀ v : Vec T, other.foldl Vec.pushUnchecked v = ⟨v.data ++ other⟩ := by
  induction other with
  | nil => intro v; cases v; simp
  | cons x xs ih =>
    intro v
    rw [List.foldl_cons, ih]
    simp [Vec.pushUnchecked]

/-- C9: `extend_from_slice(other)` performs the upfront capacity check
`len + other.len() > capacity`; on failure it returns an error with the
buffer completely unchanged (no partial copy), otherwise it appends a
clone of every element of `other` in order and returns success, so the
final `len` is `old len + other.len()`. -/
theorem c9_extend_from_slice_spec (T : Type) (N : Nat) (v : Vec T)
    (other : List T) :
    (N < v.data.length + other.length →
      Vec.extendFromSlice N v other = (v, Except.error ())) ∧
    (v.data.length + other.length ≤ N →
      Vec.extendFromSlice N v other = (⟨v.data ++ other⟩, Except.ok ())) := by
  constructor
  · intro h
    simp [Vec.extendFromSlice, h]
  · intro h
    simp [Vec.extendFromSlice, Nat.not_lt.mpr h, foldl_pushUnchecked]

/-- Witness for C9: a concrete overflowing call (unchanged buffer) and a
concrete successful append. -/
theorem c9_extend_from_slice_spec_witness :
    Vec.extendFromSlice 4 (⟨[1, 2, 3]⟩ : Vec Nat) [4, 5]
        = (⟨[1, 2, 3]⟩, Except.error ()) ∧
    Vec.extendFromSlice 4 (⟨[1, 2]⟩ : Vec Nat) [3]
        = (⟨[1, 2, 3]⟩, Except.ok ()) :=
  ⟨(c9_extend_from_slice_spec Nat 4 ⟨[1, 2, 3]⟩ [4, 5]).1 (by decide),
    (c9_extend_from_slice_spec Nat 4 ⟨[1, 2]⟩ [3]).2 (by decide)⟩

/-! ### Claim C5 — stack order of `push`/`pop` -/

/-- Pushing a list whose length fits in the remaining capacity succeeds
and appends it. -/
theorem vec_pushAll_eq {T : Type} (N : Nat) (vs : List T) :
    ∀ v : Vec T, v.data.length + vs.length ≤ N →
      Vec.pushAll N v vs = some ⟨v.data ++ vs⟩ := by
  induction vs with
  | nil =>
    intro v _
    cases v
    simp [Vec.pushAll]
  | cons x xs ih =>
    intro v h
    simp only [List.length_cons] at h
    have hx : v.data.length < N := by omega
    simp only [Vec.pushAll, Vec.push, if_pos hx]
    rw [ih ⟨v.data ++ [x]⟩ (by simp; omega)]
    simp

/-- Popping a buffer down to empty returns its elements in reverse. -/
theorem vec_popN_reverse {T : Type} (ws : List T) :
    (Vec.popN ⟨ws⟩ ws.length).1 = ws.reverse.map some ∧
    (Vec.popN ⟨ws⟩ ws.length).2 = ⟨[]⟩ := by
  induction ws using List.reverseRecOn with
  | nil => simp [Vec.popN]
  | append_singleton zs y ih =>
    have hlen : (zs ++ [y]).length = zs.length + 1 := by simp
    rw [hlen]
    have hpop : Vec.pop (⟨zs ++ [y]⟩ : Vec T) = (some y, ⟨zs⟩) := by
      simp [Vec.pop]
    simp [Vec.popN, hpop, ih.1, ih.2]

/-- C5: every sequence of pushes that fits the capacity succeeds on an
initially empty buffer; the subsequent pops return the pushed values in
reverse order (each pop yields the most recently pushed not-yet-popped
element) and a pop on the empty buffer returns `None`. -/
theorem c5_stack_order (T : Type) (N : Nat) (vs : List T)
    (hvs : vs.length ≤ N) :
    Vec.pushAll N ⟨[]⟩ vs = some ⟨vs⟩ ∧
    (Vec.popN (⟨vs⟩ : Vec T) vs.length).1 = vs.reverse.map some ∧
    Vec.pop (⟨[]⟩ : Vec T) = (none, ⟨[]⟩) := by
  refine ⟨?_, (vec_popN_reverse vs).1, by simp [Vec.pop]⟩
  have := vec_pushAll_eq N vs (⟨[]⟩ : Vec T) (by simpa using hvs)
  simpa using this

/-- Witness for C5 at the spec's concrete scenario (capacity 4,
values 0,1,2,3). -/
theorem c5_stack_order_witness :
    Vec.pushAll 4 (⟨[]⟩ : Vec Nat) [0, 1, 2, 3] = some ⟨[0, 1, 2, 3]⟩ ∧
    (Vec.popN (⟨[0, 1, 2, 3]⟩ : Vec Nat) 4).1
        = [some 3, some 2, some 1, some 0] ∧
    Vec.pop (⟨[]⟩ : Vec Nat) = (none, ⟨[]⟩) :=
  c5_stack_order Nat 4 [0, 1, 2, 3] (by decide)

/-! ### Claim C10 — cursor range invariant -/

/-- One enqueue keeps the cursors below `N` and the backing length
fixed. -/
theorem rb_enqueue_inv {T : Type} {N : Nat} (rb : RingBuffer T) (item : T)
    (hN : 1 ≤ N) (hbuf : rb.buffer.length = N) (hh : rb.head < N)
    (ht : rb.tail < N) :
    (rb.enqueue item).1.buffer.length = N ∧
    (rb.enqueue item).1.head < N ∧ (rb.enqueue item).1.tail < N := by
  have hn : rb.capacity + 1 = N := by
    simp only [RingBuffer.capacity, hbuf]
    omega
  by_cases hc : (rb.tail + 1) % (rb.capacity + 1) ≠ rb.head
  · simp only [RingBuffer.enqueue, if_pos hc]
    refine ⟨by simp [hbuf], hh, ?_⟩
    rw [hn]
    exact Nat.mod_lt _ (by omega)
  · simp only [RingBuffer.enqueue, if_neg hc]
    exact ⟨hbuf, hh, ht⟩

/-- One dequeue keeps the cursors below `N` and the backing length
fixed. -/
theorem rb_dequeue_inv {T : Type} {N : Nat} (rb : RingBuffer T)
    (hN : 1 ≤ N) (hbuf : rb.buffer.length = N) (hh : rb.head < N)
    (ht : rb.tail < N) :
    rb.dequeue.2.buffer.length = N ∧
    rb.dequeue.2.head < N ∧ rb.dequeue.2.tail < N := by
  have hn : rb.capacity + 1 = N := by
    simp only [RingBuffer.capacity, hbuf]
    omega
  by_cases hc : rb.head ≠ rb.tail
  · simp only [RingBuffer.dequeue, if_pos hc]
    refine ⟨hbuf, ?_, ht⟩
    rw [hn]
    exact Nat.mod_lt _ (by omega)
  · simp only [RingBuffer.dequeue, if_neg hc]
    exact ⟨hbuf, hh, ht⟩

/-- The cursor invariant is preserved by every operation sequence. -/
theorem rb_applyOps_inv {T : Type} {N : Nat} (hN : 1 ≤ N) :
    ∀ (ops : List (RBOp T)) (rb : RingBuffer T),
      rb.buffer.length = N → rb.head < N → rb.tail < N →
      (rb.applyOps ops).buffer.length = N ∧
      (rb.applyOps ops).head < N ∧ (rb.applyOps ops).tail < N := by
  intro ops
  induction ops with
  | nil =>
    intro rb h1 h2 h3
    exact ⟨h1, h2, h3⟩
  | cons op ops ih =>
    intro rb h1 h2 h3
    simp only [RingBuffer.applyOps, List.foldl_cons]
    have hstep : (rb.applyOp op).buffer.length = N ∧
        (rb.applyOp op).head < N ∧ (rb.applyOp op).tail < N := by
      cases op with
      | enq item => exact rb_enqueue_inv rb item hN h1 h2 h3
      | deq => exact rb_dequeue_inv rb hN h1 h2 h3
    exact ih (rb.applyOp op) hstep.1 hstep.2.1 hstep.2.2

/-- C10: starting from `new()` (head = tail = 0) over a backing array of
length `N ≥ 1`, after any sequence of enqueues and dequeues both cursors
are strictly below `N` (each is only ever advanced modulo `N`); since the
operation sequence is arbitrary, this holds after every intermediate
operation as well. -/
theorem c10_cursor_range (T : Type) (N : Nat) (buf : List T)
    (ops : List (RBOp T)) (hbuf : buf.length = N) (hN : 1 ≤ N) :
    (RingBuffer.applyOps ⟨0, 0, buf⟩ ops).head < N ∧
    (RingBuffer.applyOps ⟨0, 0, buf⟩ ops).tail < N := by
  have h := rb_applyOps_inv hN ops ⟨0, 0, buf⟩ hbuf (show 0 < N by omega)
    (show 0 < N by omega)
  exact ⟨h.2.1, h.2.2⟩

/-- Witness for C10 at a concrete wrap-inducing operation sequence. -/
theorem c10_cursor_range_witness :
    (RingBuffer.applyOps (⟨0, 0, [0, 0]⟩ : RingBuffer Nat)
        [RBOp.enq 5, RBOp.deq, RBOp.enq 6, RBOp.enq 7]).head < 2 ∧
    (RingBuffer.applyOps (⟨0, 0, [0, 0]⟩ : RingBuffer Nat)
        [RBOp.enq 5, RBOp.deq, RBOp.enq 6, RBOp.enq 7]).tail < 2 :=
  c10_cursor_range Nat 2 [0, 0] [RBOp.enq 5, RBOp.deq, RBOp.enq 6, RBOp.enq 7]
    rfl (by decide)

/-! ### Claim C1 — FIFO behaviour of the SPSC queue -/

/-- Enqueueing a run of values into an empty-at-`h` queue (the producer
has already advanced `j` slots) succeeds as long as the run fits in the
usable capacity `N - 1`; the values land in consecutive slots modulo `N`
starting at `(h + j) % N` and all other slots are untouched. -/
theorem rb_enqueueAll_run {T : Type} {N : Nat} :
    ∀ (vs : List T) (h j : Nat) (buf : List T),
      buf.length = N → h < N → j + vs.length + 1 ≤ N →
      ∃ buf' : List T,
        RingBuffer.enqueueAll ⟨h, (h + j) % N, buf⟩ vs
            = some ⟨h, (h + j + vs.length) % N, buf'⟩ ∧
        buf'.length = N ∧
        (∀ i, i < vs.length → buf'[(h + j + i) % N]? = vs[i]?) ∧
        (∀ m, m < N → (∀ i, i < vs.length → m ≠ (h + j + i) % N) →
          buf'[m]? = buf[m]?) := by
  intro vs
  induction vs with
  | nil =>
    intro h j buf hbuf hh hle
    exact ⟨buf, by simp [RingBuffer.enqueueAll], hbuf, by simp,
      fun m _ _ => rfl⟩
  | cons v vs ih =>
    intro h j buf hbuf hh hle
    simp only [List.length_cons] at hle
    have hjN : j + 1 < N := by omega
    have hcap : (⟨h, (h + j) % N, buf⟩ : RingBuffer T).capacity + 1 = N := by
      simp only [RingBuffer.capacity, hbuf]
      omega
    have hne : (h + j + 1) % N ≠ h := by
      have hne0 := add_mod_ne_self (N := N) hh hjN (show j + 1 ≠ 0 by omega)
      rw [show h + (j + 1) = h + j + 1 from by omega] at hne0
      exact hne0
    have henq : RingBuffer.enqueue (⟨h, (h + j) % N, buf⟩ : RingBuffer T) v
        = (⟨h, (h + j + 1) % N, buf.set ((h + j) % N) v⟩,
            Except.ok ()) := by
      simp only [RingBuffer.enqueue, hcap, Nat.mod_add_mod]
      rw [if_pos hne]
    simp only [RingBuffer.enqueueAll, henq, List.length_cons]
    obtain ⟨buf', heq, hlen, hget, hpres⟩ :=
      ih h (j + 1) (buf.set ((h + j) % N) v) (by simp [hbuf]) hh (by omega)
    refine ⟨buf', ?_, hlen, ?_, ?_⟩
    · rw [show h + (j + 1) = h + j + 1 from by omega,
        show h + j + 1 + vs.length = h + j + (vs.length + 1)
          from by omega] at heq
      exact heq
    · intro i hi
      cases i with
      | zero =>
        have hm : (h + j) % N < N := Nat.mod_lt _ (by omega)
        have havoid : ∀ i', i' < vs.length →
            (h + j) % N ≠ (h + (j + 1) + i') % N := by
          intro i' hi'
          have hne' := add_mod_ne_of_ne (N := N) h (show j < N by omega)
            (show j + 1 + i' < N by omega) (by omega)
          rw [show h + (j + 1 + i') = h + (j + 1) + i' from by omega] at hne'
          exact hne'
        rw [Nat.add_zero, hpres ((h + j) % N) hm havoid,
          List.getElem?_set_self (by rw [hbuf]; exact hm)]
        simp
      | succ i' =>
        have hg := hget i' (by omega)
        rw [show h + (j + 1) + i' = h + j + (i' + 1) from by omega] at hg
        simpa using hg
    · intro m hm havoidall
      have h1 : ∀ i, i < vs.length → m ≠ (h + (j + 1) + i) % N := by
        intro i hi
        have ha := havoidall (i + 1) (by omega)
        rw [show h + j + (i + 1) = h + (j + 1) + i from by omega] at ha
        exact ha
      have hm0 : m ≠ (h + j) % N := by
        have ha := havoidall 0 (by omega)
        rw [Nat.add_zero] at ha
        exact ha
      rw [hpres m hm h1, List.getElem?_set_ne (Ne.symm hm0)]

/-- Dequeueing `k` values from a queue whose consumer is at
`(h + j) % N` and producer at `(h + j + k) % N` returns the slot
contents in consecutive order modulo `N`. -/
theorem rb_dequeueN_run {T : Type} {N : Nat} :
    ∀ (k j h : Nat) (buf : List T),
      buf.length = N → h < N → j + k + 1 ≤ N →
      (RingBuffer.dequeueN ⟨(h + j) % N, (h + j + k) % N, buf⟩ k).1
          = (List.range k).map (fun i => buf[(h + j + i) % N]?) := by
  intro k
  induction k with
  | zero =>
    intro j h buf _ _ _
    simp [RingBuffer.dequeueN]
  | succ k ih =>
    intro j h buf hbuf hh hle
    have hcap : (⟨(h + j) % N, (h + j + (k + 1)) % N, buf⟩ :
        RingBuffer T).capacity + 1 = N := by
      simp only [RingBuffer.capacity, hbuf]
      omega
    have hne : (h + j) % N ≠ (h + j + (k + 1)) % N := by
      have hne0 := add_mod_ne_of_ne (N := N) h (show j < N by omega)
        (show j + (k + 1) < N by omega) (by omega)
      rw [show h + (j + (k + 1)) = h + j + (k + 1) from by omega] at hne0
      exact hne0
    have hdeq : RingBuffer.dequeue
        (⟨(h + j) % N, (h + j + (k + 1)) % N, buf⟩ : RingBuffer T)
        = (buf[(h + j) % N]?,
            ⟨(h + (j + 1)) % N, (h + j + (k + 1)) % N, buf⟩) := by
      simp only [RingBuffer.dequeue, hcap]
      rw [if_pos hne, Nat.mod_add_mod,
        show h + j + 1 = h + (j + 1) from by omega]
    simp only [RingBuffer.dequeueN, hdeq]
    have ihh := ih (j + 1) h buf hbuf hh (by omega)
    rw [show h + (j + 1) + k = h + j + (k + 1) from by omega] at ihh
    have hfun : ∀ a ∈ List.range k,
        ((fun i => buf[(h + j + i) % N]?) ∘ Nat.succ) a
          = (fun i => buf[(h + (j + 1) + i) % N]?) a := by
      intro a _
      simp only [Function.comp_apply, Nat.succ_eq_add_one]
      rw [show h + j + (a + 1) = h + (j + 1) + a from by omega]
    rw [ihh, List.range_succ_eq_map, List.map_cons, List.map_map,
      List.map_congr_left hfun]
    simp

/-- C1: for every backing array length `N ≥ 2`, every start cursor
`h < N` with the queue empty (`head = tail = h`; `h = 0` is the `new()`
state, larger `h` covers cursor wrap-around), and every sequence of
`k ≤ N - 1` values: every enqueue succeeds, and `k` subsequent dequeues
return exactly those values in enqueue order — strict FIFO with no
reordering, duplication, or loss. -/
theorem c1_fifo (T : Type) (N : Nat) (buf vs : List T) (h : Nat)
    (hbuf : buf.length = N) (hN : 2 ≤ N) (hh : h < N)
    (hvs : vs.length ≤ N - 1) :
    ∃ rb' : RingBuffer T,
      RingBuffer.enqueueAll ⟨h, h, buf⟩ vs = some rb' ∧
      (rb'.dequeueN vs.length).1 = vs.map some := by
  have h0 : (h + 0) % N = h := by
    rw [Nat.add_zero, Nat.mod_eq_of_lt hh]
  obtain ⟨buf', heq, hlen, hget, _⟩ :=
    rb_enqueueAll_run vs h 0 buf hbuf hh (by omega)
  refine ⟨⟨h, (h + 0 + vs.length) % N, buf'⟩, ?_, ?_⟩
  · have hstate : (⟨h, h, buf⟩ : RingBuffer T) = ⟨h, (h + 0) % N, buf⟩ := by
      rw [h0]
    rw [hstate, heq]
  · have hdeq := rb_dequeueN_run (N := N) vs.length 0 h buf' hlen hh
      (by omega)
    rw [h0] at hdeq
    rw [hdeq, List.map_congr_left
      (fun i hi => hget i (List.mem_range.mp hi))]
    exact range_map_getElem? vs

/-- Witness for C1 with `N = 4`, a wrapped-around empty start
(`head = tail = 3`) and the maximal run of `N - 1 = 3` values. -/
theorem c1_fifo_witness :
    ∃ rb' : RingBuffer Nat,
      RingBuffer.enqueueAll ⟨3, 3, [9, 9, 9, 9]⟩ [10, 20, 30] = some rb' ∧
      (rb'.dequeueN 3).1 = [some 10, some 20, some 30] :=
  c1_fifo Nat 4 [9, 9, 9, 9] [10, 20, 30] 3 rfl (by decide) (by decide)
    (by decide)

/-! ### Claim C6 — overwriting circular buffer -/

/-- Pushing a concatenation is pushing the parts in sequence. -/
theorem circ_pushAll_append {T : Type} (a b : List T) :
    ∀ c : CircularBuffer T,
      CircularBuffer.pushAll c (a ++ b)
        = (CircularBuffer.pushAll c a).bind
            (fun c' => CircularBuffer.pushAll c' b) := by
  induction a with
  | nil =>
    intro c
    simp [CircularBuffer.pushAll]
  | cons x xs ih =>
    intro c
    simp only [List.cons_append, CircularBuffer.pushAll]
    cases hc : c.push x with
    | none => simp
    | some c' => simp [ih]

/-- One growth-phase push (`len = index = j < C`) writes slot `j` and
advances both `len` and the cursor. -/
theorem circ_push_grow {T : Type} {C : Nat} (arr : List T) (j : Nat)
    (v : T) (harr : arr.length = C) (hj : j < C) :
    CircularBuffer.push ⟨arr, j % C, j⟩ v
      = some ⟨arr.set j v, (j + 1) % C, j + 1⟩ := by
  have hjm : j % C = j := Nat.mod_eq_of_lt hj
  simp [CircularBuffer.push, CircularBuffer.capacity, harr, hjm, hj]

/-- Growth phase: pushing a run that still fits under the capacity fills
consecutive slots starting at `j` and leaves the slots below `j`
untouched. -/
theorem circ_grow {T : Type} {C : Nat} :
    ∀ (vs : List T) (j : Nat) (arr : List T),
      arr.length = C → j + vs.length ≤ C →
      ∃ arr' : List T,
        CircularBuffer.pushAll ⟨arr, j % C, j⟩ vs
            = some ⟨arr', (j + vs.length) % C, j + vs.length⟩ ∧
        arr'.length = C ∧
        (∀ i, i < vs.length → arr'[j + i]? = vs[i]?) ∧
        (∀ m, m < j → arr'[m]? = arr[m]?) := by
  intro vs
  induction vs with
  | nil =>
    intro j arr harr hle
    exact ⟨arr, by simp [CircularBuffer.pushAll], harr, by simp,
      fun m _ => rfl⟩
  | cons v vs ih =>
    intro j arr harr hle
    simp only [List.length_cons] at hle
    have hj : j < C := by omega
    have hpush := circ_push_grow arr j v harr hj
    simp only [CircularBuffer.pushAll, hpush, List.length_cons]
    obtain ⟨arr', heq, hlen, hget, hpres⟩ :=
      ih (j + 1) (arr.set j v) (by simp [harr]) (by omega)
    refine ⟨arr', ?_, hlen, ?_, ?_⟩
    · rw [show j + 1 + vs.length = j + (vs.length + 1) from by omega] at heq
      exact heq
    · intro i hi
      cases i with
      | zero =>
        rw [Nat.add_zero, hpres j (by omega),
          List.getElem?_set_self (by rw [harr]; exact hj)]
        simp
      | succ i' =>
        have hg := hget i' (by omega)
        rw [show j + 1 + i' = j + (i' + 1) from by omega] at hg
        simpa using hg
    · intro m hm
      rw [hpres m (by omega), List.getElem?_set_ne (by omega)]

/-- One saturated push (`len = C`, cursor `p < C`) overwrites slot `p`
and advances the cursor modulo `C`, leaving `len = C`. -/
theorem circ_push_sat {T : Type} {C : Nat} (arr : List T) (p : Nat)
    (v : T) (harr : arr.length = C) (hp : p < C) :
    CircularBuffer.push ⟨arr, p, C⟩ v
      = some ⟨arr.set p v, (p + 1) % C, C⟩ := by
  simp [CircularBuffer.push, CircularBuffer.capacity, harr, hp]

/-- Saturated phase: if the buffer holds the logical window `w` (oldest
first, starting at cursor `p`), pushing `vs` keeps `len = C`, advances
the cursor by `|vs|` modulo `C`, and the window becomes the last `C`
elements of `w ++ vs`. -/
theorem circ_sat {T : Type} {C : Nat} :
    ∀ (vs arr w : List T) (p : Nat),
      arr.length = C → w.length = C → p < C →
      (∀ j, j < C → arr[(p + j) % C]? = w[j]?) →
      ∃ arr' : List T,
        CircularBuffer.pushAll ⟨arr, p, C⟩ vs
            = some ⟨arr', (p + vs.length) % C, C⟩ ∧
        arr'.length = C ∧
        (∀ j, j < C →
          arr'[((p + vs.length) % C + j) % C]?
            = ((w ++ vs).drop vs.length)[j]?) := by
  intro vs
  induction vs with
  | nil =>
    intro arr w p harr hw hp hwin
    refine ⟨arr, by simp [CircularBuffer.pushAll, Nat.mod_eq_of_lt hp],
      harr, ?_⟩
    intro j hj
    simp only [List.length_nil, Nat.add_zero, Nat.mod_add_mod,
      List.append_nil, List.drop_zero]
    exact hwin j hj
  | cons v vs ih =>
    intro arr w p harr hw hp hwin
    have hC : 1 ≤ C := by omega
    have hpush := circ_push_sat arr p v harr hp
    simp only [CircularBuffer.pushAll, hpush, List.length_cons]
    have hw1 : (w.drop 1 ++ [v]).length = C := by
      simp [hw]
      omega
    have hwin1 : ∀ j, j < C →
        (arr.set p v)[((p + 1) % C + j) % C]? = (w.drop 1 ++ [v])[j]? := by
      intro j hj
      rw [Nat.mod_add_mod]
      by_cases hj1 : 1 + j < C
      · have hne : p ≠ (p + 1 + j) % C := by
          have hne0 := add_mod_ne_self (N := C) hp (show 1 + j < C from hj1)
            (by omega)
          rw [show p + (1 + j) = p + 1 + j from by omega] at hne0
          exact (Ne.symm hne0)
        rw [List.getElem?_set_ne hne,
          show p + 1 + j = p + (1 + j) from by omega, hwin (1 + j) hj1,
          List.getElem?_append_left
            (show j < (w.drop 1).length by simp [hw]; omega),
          List.getElem?_drop]
      · have hjC : 1 + j = C := by omega
        rw [show p + 1 + j = p + C from by omega, Nat.add_mod_right,
          Nat.mod_eq_of_lt hp,
          List.getElem?_set_self (by rw [harr]; exact hp),
          List.getElem?_append_right
            (show (w.drop 1).length ≤ j by simp [hw]; omega),
          show j - (w.drop 1).length = 0 by simp [hw]; omega]
        rfl
    obtain ⟨arr', heq, hlen, hwin'⟩ :=
      ih (arr.set p v) (w.drop 1 ++ [v]) ((p + 1) % C) (by simp [harr])
        hw1 (Nat.mod_lt _ (by omega)) hwin1
    have hdrop : ((w.drop 1 ++ [v]) ++ vs).drop vs.length
        = (w ++ v :: vs).drop (vs.length + 1) := by
      rw [show vs.length + 1 = 1 + vs.length from by omega,
        ← List.drop_drop,
        List.drop_append_of_le_length (show 1 ≤ w.length by omega),
        List.append_assoc, List.singleton_append]
    refine ⟨arr', ?_, hlen, ?_⟩
    · rw [Nat.mod_add_mod,
        show p + 1 + vs.length = p + (vs.length + 1) from by omega] at heq
      exact heq
    · intro j hj
      have hwj := hwin' j hj
      simp only [Nat.mod_add_mod] at hwj
      rw [show p + 1 + vs.length + j = p + (vs.length + 1) + j
          from by omega, hdrop] at hwj
      simp only [Nat.mod_add_mod]
      exact hwj

/-- A buffer that holds the window `w` cyclically starting at cursor `q`
is a rotation of `w`, hence a permutation of it. -/
theorem circ_window_perm {T : Type} {C : Nat} (arr w : List T) (q : Nat)
    (harr : arr.length = C) (hw : w.length = C) (hq : q < C)
    (hwin : ∀ j, j < C → arr[(q + j) % C]? = w[j]?) :
    arr.Perm w := by
  have harr' : arr = w.rotate (C - q) := by
    apply List.ext_getElem?
    intro i
    by_cases hi : i < C
    · rw [List.getElem?_rotate (show i < w.length by rw [hw]; exact hi), hw]
      have hj : (i + (C - q)) % C < C := Nat.mod_lt _ (by omega)
      have hx := hwin ((i + (C - q)) % C) hj
      rw [Nat.add_mod_mod, show q + (i + (C - q)) = i + C from by omega,
        Nat.add_mod_right, Nat.mod_eq_of_lt hi] at hx
      exact hx
    · rw [List.getElem?_eq_none (show arr.length ≤ i by rw [harr]; omega),
        List.getElem?_eq_none
          (show (w.rotate (C - q)).length ≤ i by
            rw [List.length_rotate, hw]; omega)]
  rw [harr']
  exact List.rotate_perm w (C - q)

/-- C6 counterexample: a circular buffer of capacity `C = 0` is
constructible (`new([])`), and `push` on it panics (`slice[0]` on the
empty backing array, modelled `none`) instead of always succeeding as
the claim states for every capacity. -/
theorem c6_counterexample :
    CircularBuffer.push (⟨[], 0, 0⟩ : CircularBuffer Nat) 5 = none ∧
    (⟨[], 0, 0⟩ : CircularBuffer Nat).capacity = 0 :=
  ⟨rfl, rfl⟩

/-- C6 amended: for every capacity `C ≥ 1`, `push` always succeeds: while
`len < C` it writes to the slot at the write cursor and increments `len`,
and once `len = C` it overwrites the slot the cursor points to with the
cursor advancing modulo `C` and `len` staying `C` (first conjunct);
consequently pushing any `C + k` values (`k ≥ 0`) into a fresh buffer
succeeds, leaves `len = C` and the cursor at `(C + k) mod C`, and the
backing storage holds exactly the `C` most recently pushed values as a
multiset (content check independent of storage layout). -/
theorem c6_overwrite (T : Type) (C : Nat) (arr vs : List T) (hC : 1 ≤ C)
    (harr : arr.length = C) (hsat : C ≤ vs.length) :
    (∀ (c : CircularBuffer T) (x : T), c.array.length = C → c.index < C →
      c.push x = some ⟨c.array.set c.index x, (c.index + 1) % C,
        if c.len < C then c.len + 1 else c.len⟩) ∧
    ∃ c' : CircularBuffer T,
      CircularBuffer.pushAll ⟨arr, 0, 0⟩ vs = some c' ∧
      c'.len = C ∧ c'.index = vs.length % C ∧
      c'.array.Perm (vs.drop (vs.length - C)) := by
  constructor
  · intro c x hc hidx
    by_cases hlen : c.len < C <;>
      simp [CircularBuffer.push, CircularBuffer.capacity, hc, hidx, hlen]
  · have htake : (vs.take C).length = C := by
      simp [List.length_take]
      omega
    obtain ⟨arr1, heq1, hlen1, hget1, _⟩ :=
      circ_grow (C := C) (vs.take C) 0 arr harr (by omega)
    rw [Nat.zero_mod, htake, Nat.zero_add, Nat.mod_self] at heq1
    rw [htake] at hget1
    have hwin1 : ∀ j, j < C → arr1[(0 + j) % C]? = (vs.take C)[j]? := by
      intro j hj
      rw [Nat.zero_add, Nat.mod_eq_of_lt hj]
      have hg := hget1 j hj
      rwa [Nat.zero_add] at hg
    obtain ⟨arr2, heq2, hlen2, hwin2⟩ :=
      circ_sat (C := C) (vs.drop C) arr1 (vs.take C) 0 hlen1 htake
        (by omega) hwin1
    have hdlen : (vs.drop C).length = vs.length - C := by simp
    rw [hdlen, Nat.zero_add] at heq2 hwin2
    rw [List.take_append_drop] at hwin2
    have hcomb : CircularBuffer.pushAll ⟨arr, 0, 0⟩ vs
        = some ⟨arr2, (vs.length - C) % C, C⟩ := by
      conv_lhs => rw [← List.take_append_drop C vs]
      rw [circ_pushAll_append, heq1]
      simpa using heq2
    have hidx : (vs.length - C) % C = vs.length % C := by
      conv_rhs => rw [show vs.length = vs.length - C + C from by omega]
      rw [Nat.add_mod_right]
    refine ⟨⟨arr2, (vs.length - C) % C, C⟩, hcomb, rfl, hidx, ?_⟩
    exact circ_window_perm arr2 (vs.drop (vs.length - C))
      ((vs.length - C) % C) hlen2 (by simp; omega)
      (Nat.mod_lt _ (by omega)) hwin2

/-- Witness for C6's amended theorem: capacity 2, five pushes; the final
storage is a permutation of the last two values pushed. -/
theorem c6_overwrite_witness :
    (∀ (c : CircularBuffer Nat) (x : Nat),
      c.array.length = 2 → c.index < 2 →
      c.push x = some ⟨c.array.set c.index x, (c.index + 1) % 2,
        if c.len < 2 then c.len + 1 else c.len⟩) ∧
    ∃ c' : CircularBuffer Nat,
      CircularBuffer.pushAll ⟨[0, 0], 0, 0⟩ [1, 2, 3, 4, 5] = some c' ∧
      c'.len = 2 ∧ c'.index = 5 % 2 ∧ c'.array.Perm [4, 5] :=
  c6_overwrite Nat 2 [0, 0] [1, 2, 3, 4, 5] (by decide) rfl (by decide)

end Heapless
